import Mathlib

/-!
Verification of `strip.py` from the APRLPrints repository.

The program batch-processes KiCad footprint files.  Its core is
`strip_courtyard_from_content`, which splits file content on newlines,
scans for lines opening one of five geometric elements
(`fp_rect`, `fp_line`, `fp_poly`, `fp_circle`, `fp_arc`), delimits a
complete element by a running parenthesis counter, and drops the element
when its joined text matches the regex `layer\s+"[FB]\.CrtYd"`.

We embed strings as `List Char`, lines as `List Char`, and model the
Python functions `has_courtyard`, `strip_courtyard_from_content` and the
pure control-flow skeleton of `process_file` directly from the source.
-/

namespace Strip

/-- Characters matched by Python's `\s` (ASCII range). -/
def pySpace (c : Char) : Bool :=
  c = ' ' || c = '\t' || c = '\n' || c = '\r' || c = '\x0b' || c = '\x0c'

/-- Characters matched by Python's `\w` (ASCII range). -/
def isWordChar (c : Char) : Bool :=
  c.isAlpha || c.isDigit || c = '_'

/-- The five geometric element keywords of the regex
`^(\s*)\((fp_rect|fp_line|fp_poly|fp_circle|fp_arc)\b` in
`strip_courtyard_from_content`. -/
def geomKeywords : List (List Char) :=
  ["fp_rect".toList, "fp_line".toList, "fp_poly".toList,
   "fp_circle".toList, "fp_arc".toList]

/-- `startsWithKw s kw`: `s` begins with keyword `kw` followed by a word
boundary (end of line or a non-word character). -/
def startsWithKw (s kw : List Char) : Bool :=
  kw.isPrefixOf s &&
    (match s.drop kw.length with
     | [] => true
     | c :: _ => !isWordChar c)

/-- `re.match(r'^(\s*)\((fp_rect|fp_line|fp_poly|fp_circle|fp_arc)\b', line)`:
after optional leading whitespace the line opens one of the five
geometric elements. -/
def isGeomStart (l : List Char) : Bool :=
  match l.dropWhile pySpace with
  | c :: rest => c = '(' && geomKeywords.any (fun kw => startsWithKw rest kw)
  | [] => false

/-- The pattern `layer\s+"[FB]\.CrtYd"` matched at the beginning of `s`:
literal `layer`, at least one whitespace character, then a quoted
`F.CrtYd` or `B.CrtYd`. -/
def courtyardTagAt (s : List Char) : Bool :=
  ("layer".toList.isPrefixOf s) &&
    (let r := s.drop 5
     (!(r.takeWhile pySpace).isEmpty) &&
       (("\"F.CrtYd\"".toList.isPrefixOf (r.dropWhile pySpace)) ||
        ("\"B.CrtYd\"".toList.isPrefixOf (r.dropWhile pySpace))))

/-- `re.search(r'layer\s+"[FB]\.CrtYd"', s)`: the courtyard layer pattern
occurs somewhere in `s`. -/
def courtyardSearch (s : List Char) : Bool :=
  s.tails.any courtyardTagAt

/-- `has_courtyard` from `strip.py`: search the whole content for the
courtyard layer pattern. -/
def has_courtyard (content : List Char) : Bool :=
  courtyardSearch content

/-- `line.count('(') - line.count(')')`: the per-line parenthesis delta,
counting parentheses anywhere in the line. -/
def delta (l : List Char) : Int :=
  (l.count '(' : Int) - (l.count ')' : Int)

/-- The inner `while j < len(lines) and paren_count > 0` loop of
`strip_courtyard_from_content`: given the running counter `c` after the
already-collected lines, consume further lines while the counter stays
positive.  Returns the consumed lines and the remaining lines. -/
def collectGo : Int → List (List Char) → List (List Char) × List (List Char)
  | _, [] => ([], [])
  | c, x :: xs =>
    if c > 0 then
      let p := collectGo (c + delta x) xs
      (x :: p.1, p.2)
    else ([], x :: xs)

theorem collectGo_append (c : Int) (ls : List (List Char)) :
    (collectGo c ls).1 ++ (collectGo c ls).2 = ls := by
  induction ls generalizing c with
  | nil => simp [collectGo]
  | cons x xs ih =>
    by_cases h : c > 0
    · simp [collectGo, h, ih]
    · simp [collectGo, h]

theorem collectGo_snd_length_le (c : Int) (ls : List (List Char)) :
    (collectGo c ls).2.length ≤ ls.length := by
  conv_rhs => rw [← collectGo_append c ls]
  simp

/-- `content.split('\n')`. -/
def splitNl : List Char → List (List Char)
  | [] => [[]]
  | c :: cs =>
    if c = '\n' then [] :: splitNl cs
    else
      match splitNl cs with
      | [] => [[c]]
      | l :: ls => (c :: l) :: ls

/-- `'\n'.join(lines)`. -/
def joinNl : List (List Char) → List Char
  | [] => []
  | [l] => l
  | l :: x :: ls => l ++ '\n' :: joinNl (x :: ls)

/-- The outer `while i < len(lines)` loop of
`strip_courtyard_from_content`: keep a non-element line; at a geometric
element opener, delimit the element with `collectGo` and keep or drop it
according to the courtyard layer search on its joined text. -/
def stripLines : List (List Char) → List (List Char)
  | [] => []
  | l :: ls =>
    if isGeomStart l then
      let p := collectGo (delta l) ls
      if courtyardSearch (joinNl (l :: p.1)) then
        stripLines p.2
      else
        (l :: p.1) ++ stripLines p.2
    else
      l :: stripLines ls
termination_by ls => ls.length
decreasing_by
  · exact Nat.lt_succ_of_le (collectGo_snd_length_le _ _)
  · exact Nat.lt_succ_of_le (collectGo_snd_length_le _ _)
  · exact Nat.lt_succ_self _

/-- `strip_courtyard_from_content` from `strip.py`: split on newlines,
run the scanning loop, join with newlines. -/
def strip_courtyard_from_content (content : List Char) : List Char :=
  joinNl (stripLines (splitNl content))

/-! ### Lemmas about `splitNl` and `joinNl` -/

theorem splitNl_ne_nil (cs : List Char) : splitNl cs ≠ [] := by
  induction cs with
  | nil => simp [splitNl]
  | cons c cs ih =>
    by_cases h : c = '\n'
    · simp [splitNl, h]
    · cases hs : splitNl cs with
      | nil => simp [splitNl, h, hs]
      | cons l ls => simp [splitNl, h, hs]

theorem joinNl_cons_cons (a b : List Char) (ls : List (List Char)) :
    joinNl (a :: b :: ls) = a ++ '\n' :: joinNl (b :: ls) := rfl

theorem joinNl_splitNl (cs : List Char) : joinNl (splitNl cs) = cs := by
  induction cs with
  | nil => rfl
  | cons c cs ih =>
    by_cases h : c = '\n'
    · subst h
      cases hs : splitNl cs with
      | nil => exact absurd hs (splitNl_ne_nil cs)
      | cons l ls =>
        have hsp : splitNl ('\n' :: cs) = [] :: l :: ls := by
          simp [splitNl, hs]
        rw [hs] at ih
        rw [hsp, joinNl_cons_cons, ih]
        simp
    · cases hs : splitNl cs with
      | nil => exact absurd hs (splitNl_ne_nil cs)
      | cons l ls =>
        have hsp : splitNl (c :: cs) = (c :: l) :: ls := by
          simp [splitNl, h, hs]
        rw [hs] at ih
        cases ls with
        | nil =>
          rw [hsp]
          simp [joinNl] at ih ⊢
          simp [ih]
        | cons l' ls' =>
          rw [hsp, joinNl_cons_cons]
          rw [joinNl_cons_cons] at ih
          rw [← ih]
          simp

theorem splitNl_no_newline (cs : List Char) : ∀ x ∈ splitNl cs, '\n' ∉ x := by
  induction cs with
  | nil =>
    intro x hx
    simp [splitNl] at hx
    simp [hx]
  | cons c cs ih =>
    intro x hx
    by_cases h : c = '\n'
    · simp [splitNl, h] at hx
      rcases hx with hx | hx
      · simp [hx]
      · exact ih x hx
    · cases hs : splitNl cs with
      | nil => exact absurd hs (splitNl_ne_nil cs)
      | cons l ls =>
        have hsp : splitNl (c :: cs) = (c :: l) :: ls := by
          simp [splitNl, h, hs]
        rw [hsp] at hx
        rcases List.mem_cons.mp hx with hx | hx
        · subst hx
          intro hmem
          rcases List.mem_cons.mp hmem with hc | hc
          · exact h hc.symm
          · exact ih l (hs ▸ List.mem_cons_self l ls) hc
        · exact ih x (hs ▸ List.mem_cons_of_mem l hx)

theorem splitNl_single (x : List Char) (h : '\n' ∉ x) : splitNl x = [x] := by
  induction x with
  | nil => rfl
  | cons c cs ih =>
    have hc : ¬ (c = '\n') := fun hc => h (hc ▸ List.mem_cons_self c cs)
    have hcs : splitNl cs = [cs] := ih (fun hm => h (List.mem_cons_of_mem c hm))
    simp [splitNl, hc, hcs]

theorem splitNl_append_newline (x t : List Char) (h : '\n' ∉ x) :
    splitNl (x ++ '\n' :: t) = x :: splitNl t := by
  induction x with
  | nil => simp [splitNl]
  | cons c cs ih =>
    have hc : ¬ (c = '\n') := fun hc => h (hc ▸ List.mem_cons_self c cs)
    have hcs := ih (fun hm => h (List.mem_cons_of_mem c hm))
    cases hs : splitNl t with
    | nil => exact absurd hs (splitNl_ne_nil t)
    | cons l ls =>
      rw [hs] at hcs
      simp [splitNl, hc, hcs]

theorem splitNl_joinNl (xs : List (List Char)) (h1 : ∀ x ∈ xs, '\n' ∉ x)
    (h2 : xs ≠ []) : splitNl (joinNl xs) = xs := by
  induction xs with
  | nil => exact absurd rfl h2
  | cons x xs ih =>
    cases xs with
    | nil =>
      have := splitNl_single x (h1 x (List.mem_cons_self x []))
      simpa [joinNl] using this
    | cons y ys =>
      rw [joinNl_cons_cons,
        splitNl_append_newline x _ (h1 x (List.mem_cons_self x _)),
        ih (fun z hz => h1 z (List.mem_cons_of_mem x hz)) (by simp)]

theorem joinNl_append (xs ys : List (List Char)) (hx : xs ≠ []) (hy : ys ≠ []) :
    joinNl (xs ++ ys) = joinNl xs ++ '\n' :: joinNl ys := by
  induction xs with
  | nil => exact absurd rfl hx
  | cons x xs ih =>
    cases xs with
    | nil =>
      cases ys with
      | nil => exact absurd rfl hy
      | cons y ys => simp [joinNl_cons_cons, joinNl]
    | cons x' xs' =>
      have : (x :: x' :: xs') ++ ys = x :: ((x' :: xs') ++ ys) := rfl
      rw [this]
      have hne : (x' :: xs') ++ ys = x' :: (xs' ++ ys) := rfl
      rw [hne, joinNl_cons_cons, ← hne, ih (by simp), joinNl_cons_cons]
      simp

/-! ### Monotonicity of the courtyard-pattern search -/

theorem courtyardTagAt_append (s t : List Char) (h : courtyardTagAt s = true) :
    courtyardTagAt (s ++ t) = true := by
  simp only [courtyardTagAt, Bool.and_eq_true, Bool.or_eq_true, Bool.not_eq_true',
    List.isPrefixOf_iff_prefix] at h ⊢
  obtain ⟨h1, h2, h3⟩ := h
  obtain ⟨s', rfl⟩ := h1
  have h5 : ("layer".toList).length = 5 := by decide
  have hdrop : ("layer".toList ++ s').drop 5 = s' := h5 ▸ List.drop_left _ _
  have hdrop2 : (("layer".toList ++ s') ++ t).drop 5 = s' ++ t := by
    rw [List.append_assoc]
    exact h5 ▸ List.drop_left _ _
  rw [hdrop] at h2 h3
  rw [hdrop2]
  refine ⟨⟨s' ++ t, by simp⟩, ?_, ?_⟩
  · cases s' with
    | nil => simp at h2
    | cons c cs =>
      by_cases hp : pySpace c
      · simp [List.takeWhile_cons, hp]
      · simp [List.takeWhile_cons, hp] at h2
  · rw [List.dropWhile_append]
    have hne : (s'.dropWhile pySpace).isEmpty = false := by
      rcases h3 with h3 | h3 <;>
      · obtain ⟨u, hu⟩ := h3
        rw [← hu]
        simp
    rw [hne]
    simp only [Bool.false_eq_true, if_false]
    rcases h3 with h3 | h3
    · left
      obtain ⟨u, hu⟩ := h3
      exact ⟨u ++ t, by rw [← List.append_assoc, hu]⟩
    · right
      obtain ⟨u, hu⟩ := h3
      exact ⟨u ++ t, by rw [← List.append_assoc, hu]⟩

theorem courtyardSearch_iff (s : List Char) :
    courtyardSearch s = true ↔ ∃ u v, s = u ++ v ∧ courtyardTagAt v = true := by
  simp only [courtyardSearch, List.any_eq_true]
  constructor
  · rintro ⟨v, hv, htag⟩
    obtain ⟨u, rfl⟩ := (List.mem_tails v s).mp hv
    exact ⟨u, v, rfl, htag⟩
  · rintro ⟨u, v, rfl, htag⟩
    exact ⟨v, (List.mem_tails v (u ++ v)).mpr ⟨u, rfl⟩, htag⟩

theorem courtyardSearch_append_left (s t : List Char)
    (h : courtyardSearch t = true) : courtyardSearch (s ++ t) = true := by
  rw [courtyardSearch_iff] at h ⊢
  obtain ⟨u, v, rfl, htag⟩ := h
  exact ⟨s ++ u, v, by simp, htag⟩

theorem courtyardSearch_append_right (s t : List Char)
    (h : courtyardSearch s = true) : courtyardSearch (s ++ t) = true := by
  rw [courtyardSearch_iff] at h ⊢
  obtain ⟨u, v, rfl, htag⟩ := h
  exact ⟨u, v ++ t, by simp, courtyardTagAt_append v t htag⟩

/-! ### Lemmas about `collectGo` and `stripLines` -/

theorem collectGo_nil_all (c : Int) (ls : List (List Char))
    (h : (collectGo c ls).2 = []) : (collectGo c ls).1 = ls := by
  have := collectGo_append c ls
  rw [h, List.append_nil] at this
  exact this

theorem collectGo_tail_indep :
    ∀ (c : Int) (ls a : List (List Char)) (x : List Char) (b : List (List Char)),
      collectGo c ls = (a, x :: b) → ∀ t, collectGo c (a ++ t) = (a, t) := by
  intro c ls
  induction ls generalizing c with
  | nil =>
    intro a x b h t
    simp [collectGo] at h
  | cons y ys ih =>
    intro a x b h t
    by_cases hc : c > 0
    · rw [collectGo, if_pos hc] at h
      have h1 : y :: (collectGo (c + delta y) ys).1 = a := (Prod.ext_iff.mp h).1
      have h2 : (collectGo (c + delta y) ys).2 = x :: b := (Prod.ext_iff.mp h).2
      have hih := ih (c + delta y) (collectGo (c + delta y) ys).1 x b (by rw [← h2]) t
      subst h1
      rw [List.cons_append, collectGo, if_pos hc, hih]
    · rw [collectGo, if_neg hc] at h
      obtain ⟨rfl, -⟩ := Prod.ext_iff.mp h
      cases t with
      | nil => simp [collectGo]
      | cons z zs =>
        simp only [List.nil_append]
        rw [collectGo, if_neg hc]

theorem stripLines_nil : stripLines [] = [] := by
  simp [stripLines]

theorem stripLines_cons_geom (l : List Char) (ls : List (List Char))
    (h : isGeomStart l = true) :
    stripLines (l :: ls) =
      if courtyardSearch (joinNl (l :: (collectGo (delta l) ls).1)) then
        stripLines (collectGo (delta l) ls).2
      else
        (l :: (collectGo (delta l) ls).1) ++ stripLines (collectGo (delta l) ls).2 := by
  rw [stripLines]
  simp [h]

theorem stripLines_cons_plain (l : List Char) (ls : List (List Char))
    (h : isGeomStart l = false) :
    stripLines (l :: ls) = l :: stripLines ls := by
  rw [stripLines]
  simp [h]

theorem stripLines_sublist_aux :
    ∀ (n : Nat) (ls : List (List Char)), ls.length ≤ n →
      (stripLines ls).Sublist ls := by
  intro n
  induction n with
  | zero =>
    intro ls h
    cases ls with
    | nil => simp [stripLines_nil]
    | cons l ls' => simp at h
  | succ n ih =>
    intro ls h
    cases ls with
    | nil => simp [stripLines_nil]
    | cons l ls' =>
      by_cases hg : isGeomStart l
      · rw [stripLines_cons_geom l ls' hg]
        have hsplit : (collectGo (delta l) ls').1 ++ (collectGo (delta l) ls').2 = ls' :=
          collectGo_append _ _
        have hlen2 : (collectGo (delta l) ls').2.length ≤ ls'.length :=
          collectGo_snd_length_le _ _
        have hrec : (stripLines (collectGo (delta l) ls').2).Sublist (collectGo (delta l) ls').2 :=
          ih _ (le_trans hlen2 (Nat.le_of_succ_le_succ h))
        have h2sub : (collectGo (delta l) ls').2.Sublist ls' := by
          conv_rhs => rw [← hsplit]
          exact List.sublist_append_right _ _
        by_cases hc : courtyardSearch (joinNl (l :: (collectGo (delta l) ls').1))
        · rw [if_pos hc]
          exact List.Sublist.cons l (hrec.trans h2sub)
        · rw [if_neg hc]
          have hkeep : ((collectGo (delta l) ls').1 ++
              stripLines (collectGo (delta l) ls').2).Sublist ls' := by
            conv_rhs => rw [← hsplit]
            exact List.Sublist.append_left hrec _
          rw [List.cons_append]
          exact List.Sublist.cons₂ l hkeep
      · have hg' : isGeomStart l = false := by simpa using hg
        rw [stripLines_cons_plain l ls' hg']
        exact List.Sublist.cons₂ l (ih ls' (Nat.le_of_succ_le_succ h))

theorem stripLines_sublist (ls : List (List Char)) :
    (stripLines ls).Sublist ls :=
  stripLines_sublist_aux ls.length ls le_rfl

/-! ### The scan decomposition (specification-side view of the loop)

`scanChunks` records, per the spec's description of the algorithm, how the
scanner partitions the input lines into plain lines and delimited
elements; `keepChunk` states the keep/discard decision: an element is
discarded exactly when its joined text contains the courtyard pattern. -/

inductive Chunk where
  | plain : List Char → Chunk
  | elem : List (List Char) → Chunk

/-- The input lines a chunk covers. -/
def chunkLines : Chunk → List (List Char)
  | .plain l => [l]
  | .elem e => e

/-- The lines a chunk contributes to the output: a plain line is kept;
an element is dropped exactly when its joined text matches the
courtyard-layer pattern, and kept verbatim otherwise. -/
def keepChunk : Chunk → List (List Char)
  | .plain l => [l]
  | .elem e => if courtyardSearch (joinNl e) then [] else e

/-- The scanner's partition of the input lines into chunks. -/
def scanChunks : List (List Char) → List Chunk
  | [] => []
  | l :: ls =>
    if isGeomStart l then
      let p := collectGo (delta l) ls
      Chunk.elem (l :: p.1) :: scanChunks p.2
    else
      Chunk.plain l :: scanChunks ls
termination_by ls => ls.length
decreasing_by
  · exact Nat.lt_succ_of_le (collectGo_snd_length_le _ _)
  · exact Nat.lt_succ_self _

theorem scanChunks_nil : scanChunks [] = [] := by
  simp [scanChunks]

theorem scanChunks_cons_geom (l : List Char) (ls : List (List Char))
    (h : isGeomStart l = true) :
    scanChunks (l :: ls) =
      Chunk.elem (l :: (collectGo (delta l) ls).1) ::
        scanChunks (collectGo (delta l) ls).2 := by
  rw [scanChunks]
  simp [h]

theorem scanChunks_cons_plain (l : List Char) (ls : List (List Char))
    (h : isGeomStart l = false) :
    scanChunks (l :: ls) = Chunk.plain l :: scanChunks ls := by
  rw [scanChunks]
  simp [h]

theorem scan_decomposition_aux :
    ∀ (n : Nat) (ls : List (List Char)), ls.length ≤ n →
      ((scanChunks ls).map chunkLines).flatten = ls ∧
        stripLines ls = ((scanChunks ls).map keepChunk).flatten := by
  intro n
  induction n with
  | zero =>
    intro ls h
    cases ls with
    | nil => simp [scanChunks_nil, stripLines_nil]
    | cons l ls' => simp at h
  | succ n ih =>
    intro ls h
    cases ls with
    | nil => simp [scanChunks_nil, stripLines_nil]
    | cons l ls' =>
      by_cases hg : isGeomStart l
      · have hsplit : (collectGo (delta l) ls').1 ++ (collectGo (delta l) ls').2 = ls' :=
          collectGo_append _ _
        have hlen2 : (collectGo (delta l) ls').2.length ≤ ls'.length :=
          collectGo_snd_length_le _ _
        have hihs := ih (collectGo (delta l) ls').2
          (le_trans hlen2 (Nat.le_of_succ_le_succ h))
        rw [scanChunks_cons_geom l ls' hg, stripLines_cons_geom l ls' hg]
        constructor
        · simp only [List.map_cons, List.flatten_cons, chunkLines]
          rw [hihs.1, List.cons_append, hsplit]
        · simp only [List.map_cons, List.flatten_cons, keepChunk]
          by_cases hc : courtyardSearch (joinNl (l :: (collectGo (delta l) ls').1))
          · rw [if_pos hc, if_pos hc, hihs.2, List.nil_append]
          · rw [if_neg hc, if_neg hc, hihs.2]
      · have hg' : isGeomStart l = false := by simpa using hg
        have hihs := ih ls' (Nat.le_of_succ_le_succ h)
        rw [scanChunks_cons_plain l ls' hg', stripLines_cons_plain l ls' hg']
        constructor
        · simp only [List.map_cons, List.flatten_cons, chunkLines, List.singleton_append]
          rw [hihs.1]
        · simp only [List.map_cons, List.flatten_cons, keepChunk, List.singleton_append]
          rw [hihs.2]

theorem scanChunks_flatten (ls : List (List Char)) :
    ((scanChunks ls).map chunkLines).flatten = ls :=
  (scan_decomposition_aux ls.length ls le_rfl).1

theorem stripLines_eq_keepChunks (ls : List (List Char)) :
    stripLines ls = ((scanChunks ls).map keepChunk).flatten :=
  (scan_decomposition_aux ls.length ls le_rfl).2

/-! ### Running-counter characterization of `collectGo` -/

/-- Sum of per-line parenthesis deltas. -/
def sumD (xs : List (List Char)) : Int :=
  (xs.map delta).sum

theorem sumD_nil : sumD [] = 0 := rfl

theorem sumD_cons (x : List Char) (xs : List (List Char)) :
    sumD (x :: xs) = delta x + sumD xs := by
  simp [sumD]

theorem collectGo_spec (c : Int) (ls : List (List Char)) :
    (∀ m, (collectGo c ls).1.length ≤ m ∨ 0 < c + sumD ((collectGo c ls).1.take m)) ∧
      ((collectGo c ls).2 = [] ∨ c + sumD (collectGo c ls).1 ≤ 0) := by
  induction ls generalizing c with
  | nil =>
    constructor
    · intro m
      left
      simp [collectGo]
    · left
      simp [collectGo]
  | cons y ys ih =>
    by_cases hc : c > 0
    · have h1 : (collectGo c (y :: ys)).1 = y :: (collectGo (c + delta y) ys).1 := by
        rw [collectGo, if_pos hc]
      have h2 : (collectGo c (y :: ys)).2 = (collectGo (c + delta y) ys).2 := by
        rw [collectGo, if_pos hc]
      constructor
      · intro m
        cases m with
        | zero =>
          right
          simpa [sumD_nil] using hc
        | succ k =>
          rcases (ih (c + delta y)).1 k with hk | hk
          · left
            rw [h1]
            simpa using Nat.succ_le_succ hk
          · right
            rw [h1, List.take_succ_cons, sumD_cons]
            linarith
      · rcases (ih (c + delta y)).2 with hk | hk
        · left
          rw [h2, hk]
        · right
          rw [h1, sumD_cons]
          linarith
    · have h1 : (collectGo c (y :: ys)).1 = [] := by
        rw [collectGo, if_neg hc]
      have hc' : c ≤ 0 := by linarith [Int.not_lt.mp hc]
      constructor
      · intro m
        left
        simp [h1]
      · right
        rw [h1]
        simpa [sumD_nil] using hc'

/-! ### Content without the courtyard pattern passes through unchanged -/

theorem courtyardSearch_cons_of (c : Char) (s : List Char)
    (h : courtyardSearch s = true) : courtyardSearch (c :: s) = true := by
  have := courtyardSearch_append_left [c] s h
  simpa using this

theorem stripLines_of_no_courtyard_aux :
    ∀ (n : Nat) (ls : List (List Char)), ls.length ≤ n →
      courtyardSearch (joinNl ls) = false → stripLines ls = ls := by
  intro n
  induction n with
  | zero =>
    intro ls h hs
    cases ls with
    | nil => simp [stripLines_nil]
    | cons l ls' => simp at h
  | succ n ih =>
    intro ls h hs
    cases ls with
    | nil => simp [stripLines_nil]
    | cons l ls' =>
      by_cases hg : isGeomStart l
      · have hsplit : (collectGo (delta l) ls').1 ++ (collectGo (delta l) ls').2 = ls' :=
          collectGo_append _ _
        have hwhole : (l :: (collectGo (delta l) ls').1) ++ (collectGo (delta l) ls').2
            = l :: ls' := by rw [List.cons_append, hsplit]
        have helem : courtyardSearch (joinNl (l :: (collectGo (delta l) ls').1)) = false := by
          cases hsearch : courtyardSearch (joinNl (l :: (collectGo (delta l) ls').1)) with
          | false => rfl
          | true =>
            exfalso
            cases hp2 : (collectGo (delta l) ls').2 with
            | nil =>
              rw [hp2, List.append_nil] at hwhole
              rw [hwhole] at hsearch
              rw [hsearch] at hs
              exact Bool.true_eq_false.mp hs
            | cons x b =>
              have hjoin : joinNl (l :: ls')
                  = joinNl (l :: (collectGo (delta l) ls').1) ++
                      '\n' :: joinNl (collectGo (delta l) ls').2 := by
                rw [← hwhole, joinNl_append _ _ (by simp) (by simp [hp2])]
              have := courtyardSearch_append_right
                (joinNl (l :: (collectGo (delta l) ls').1))
                ('\n' :: joinNl (collectGo (delta l) ls').2) hsearch
              rw [← hjoin] at this
              rw [this] at hs
              exact Bool.true_eq_false.mp hs
        rw [stripLines_cons_geom l ls' hg, if_neg (by simp [helem])]
        cases hp2 : (collectGo (delta l) ls').2 with
        | nil =>
          rw [stripLines_nil, List.append_nil]
          rw [hp2, List.append_nil] at hwhole
          exact hwhole
        | cons x b =>
          have htail : courtyardSearch (joinNl (collectGo (delta l) ls').2) = false := by
            cases hsearch : courtyardSearch (joinNl (collectGo (delta l) ls').2) with
            | false => rfl
            | true =>
              exfalso
              have hjoin : joinNl (l :: ls')
                  = joinNl (l :: (collectGo (delta l) ls').1) ++
                      '\n' :: joinNl (collectGo (delta l) ls').2 := by
                rw [← hwhole, joinNl_append _ _ (by simp) (by simp [hp2])]
              have h1 := courtyardSearch_cons_of '\n' _ hsearch
              have h2 := courtyardSearch_append_left
                (joinNl (l :: (collectGo (delta l) ls').1)) _ h1
              rw [← hjoin] at h2
              rw [h2] at hs
              exact Bool.true_eq_false.mp hs
          have hlen2 : (collectGo (delta l) ls').2.length ≤ ls'.length :=
            collectGo_snd_length_le _ _
          rw [← hp2, ih _ (le_trans hlen2 (Nat.le_of_succ_le_succ h)) htail, hwhole]
      · have hg' : isGeomStart l = false := by simpa using hg
        rw [stripLines_cons_plain l ls' hg']
        cases ls' with
        | nil => rw [stripLines_nil]
        | cons y ys =>
          have htail : courtyardSearch (joinNl (y :: ys)) = false := by
            cases hsearch : courtyardSearch (joinNl (y :: ys)) with
            | false => rfl
            | true =>
              exfalso
              have h1 := courtyardSearch_cons_of '\n' _ hsearch
              have h2 := courtyardSearch_append_left l _ h1
              rw [← joinNl_cons_cons] at h2
              rw [h2] at hs
              exact Bool.true_eq_false.mp hs
          rw [ih _ (Nat.le_of_succ_le_succ h) htail]

theorem stripLines_of_no_courtyard (ls : List (List Char))
    (h : courtyardSearch (joinNl ls) = false) : stripLines ls = ls :=
  stripLines_of_no_courtyard_aux ls.length ls le_rfl h

/-! ### Idempotence of the scanning pass -/

theorem stripLines_idem_aux :
    ∀ (n : Nat) (ls : List (List Char)), ls.length ≤ n →
      stripLines (stripLines ls) = stripLines ls := by
  intro n
  induction n with
  | zero =>
    intro ls h
    cases ls with
    | nil => simp [stripLines_nil]
    | cons l ls' => simp at h
  | succ n ih =>
    intro ls h
    cases ls with
    | nil => simp [stripLines_nil]
    | cons l ls' =>
      have hlslen : ls'.length ≤ n := Nat.le_of_succ_le_succ h
      by_cases hg : isGeomStart l
      · have hsplit : (collectGo (delta l) ls').1 ++ (collectGo (delta l) ls').2 = ls' :=
          collectGo_append _ _
        have hlen2 : (collectGo (delta l) ls').2.length ≤ ls'.length :=
          collectGo_snd_length_le _ _
        rw [stripLines_cons_geom l ls' hg]
        by_cases hc : courtyardSearch (joinNl (l :: (collectGo (delta l) ls').1))
        · rw [if_pos hc]
          exact ih _ (le_trans hlen2 hlslen)
        · rw [if_neg hc]
          cases hp2 : (collectGo (delta l) ls').2 with
          | nil =>
            have hall : (collectGo (delta l) ls').1 = ls' := collectGo_nil_all _ _ hp2
            rw [stripLines_nil, List.append_nil, hall]
            rw [stripLines_cons_geom l ls' hg, if_neg hc]
            rw [hp2, stripLines_nil, List.append_nil, hall]
          | cons x b =>
            rw [← hp2]
            have hindep := collectGo_tail_indep (delta l) ls'
              (collectGo (delta l) ls').1 x b (by rw [← hp2])
              (stripLines (collectGo (delta l) ls').2)
            have hstep : stripLines ((l :: (collectGo (delta l) ls').1) ++
                stripLines (collectGo (delta l) ls').2)
                = (l :: (collectGo (delta l) ls').1) ++
                    stripLines (stripLines (collectGo (delta l) ls').2) := by
              rw [List.cons_append, stripLines_cons_geom _ _ hg, hindep]
              rw [if_neg hc]
            rw [hstep, ih _ (le_trans hlen2 hlslen)]
      · have hg' : isGeomStart l = false := by simpa using hg
        rw [stripLines_cons_plain l ls' hg', stripLines_cons_plain l _ hg',
          ih _ hlslen]

theorem stripLines_idem (ls : List (List Char)) :
    stripLines (stripLines ls) = stripLines ls :=
  stripLines_idem_aux ls.length ls le_rfl

/-! ### Characterization of element recognition -/

theorem dropWhile_all_append (p : Char → Bool) (ws t : List Char)
    (h : ∀ c ∈ ws, p c = true) :
    List.dropWhile p (ws ++ t) = List.dropWhile p t := by
  induction ws with
  | nil => rfl
  | cons c ws' ih =>
    rw [List.cons_append, List.dropWhile_cons, if_pos (h c (List.mem_cons_self c ws'))]
    exact ih (fun c hc => h c (List.mem_cons_of_mem _ hc))

theorem isGeomStart_iff (l : List Char) :
    isGeomStart l = true ↔
      ∃ ws kw rest, kw ∈ geomKeywords ∧
        l = ws ++ '(' :: (kw ++ rest) ∧
        (∀ c ∈ ws, pySpace c = true) ∧
        (∀ c, rest.head? = some c → isWordChar c = false) := by
  constructor
  · intro h
    rw [isGeomStart] at h
    cases hd : l.dropWhile pySpace with
    | nil => rw [hd] at h; simp at h
    | cons c rest0 =>
      rw [hd] at h
      simp only [Bool.and_eq_true, decide_eq_true_eq] at h
      obtain ⟨rfl, hany⟩ := h
      rw [List.any_eq_true] at hany
      obtain ⟨kw, hkw, hsw⟩ := hany
      rw [startsWithKw, Bool.and_eq_true] at hsw
      obtain ⟨hpre, hbound⟩ := hsw
      rw [List.isPrefixOf_iff_prefix] at hpre
      obtain ⟨rest, rfl⟩ := hpre
      refine ⟨l.takeWhile pySpace, kw, rest, hkw, ?_, ?_, ?_⟩
      · conv_lhs => rw [← List.takeWhile_append_dropWhile pySpace l]
        rw [hd]
      · intro c hc
        exact List.mem_takeWhile_imp hc
      · intro c hc
        rw [List.drop_left] at hbound
        cases rest with
        | nil => simp at hc
        | cons r rs =>
          simp only [List.head?_cons, Option.some.injEq] at hc
          subst hc
          simpa using hbound
  · rintro ⟨ws, kw, rest, hkw, rfl, hws, hbound⟩
    rw [isGeomStart, dropWhile_all_append pySpace ws _ hws,
      List.dropWhile_cons, if_neg (by decide)]
    simp only [Bool.and_eq_true, decide_eq_true_eq]
    refine ⟨by trivial, ?_⟩
    rw [List.any_eq_true]
    refine ⟨kw, hkw, ?_⟩
    rw [startsWithKw, Bool.and_eq_true]
    constructor
    · rw [List.isPrefixOf_iff_prefix]
      exact ⟨rest, rfl⟩
    · rw [List.drop_left]
      cases rest with
      | nil => rfl
      | cons r rs =>
        have := hbound r (by simp)
        simpa using this

/-! ### The `process_file` control flow, with file I/O modelled as `Except` -/

/-- The content `process_file` computes for writing (lines 181–197 of
`strip.py`): courtyards are stripped only when requested and present. -/
def processedContent (content : List Char) (strip_courtyard : Bool) : List Char :=
  if strip_courtyard then
    if has_courtyard content then strip_courtyard_from_content content
    else content
  else content

/-- `process_file` from `strip.py`, with reading the input file and
writing the output file modelled as `Except`-valued actions: the `try`
block reads the content, transforms it, and writes the result; a raised
exception at any step is caught and yields `false`, and `true` is
returned otherwise. -/
def process_file (readRes : Except String (List Char))
    (write : List Char → Except String Unit) (strip_courtyard : Bool) : Bool :=
  match readRes with
  | .error _ => false
  | .ok content =>
    match write (processedContent content strip_courtyard) with
    | .error _ => false
    | .ok _ => true

/-! ### Lemmas about `strip_courtyard_from_content` at content level -/

theorem strip_of_no_courtyard (content : List Char)
    (h : has_courtyard content = false) :
    strip_courtyard_from_content content = content := by
  rw [strip_courtyard_from_content,
    stripLines_of_no_courtyard _ (by rw [joinNl_splitNl]; exact h),
    joinNl_splitNl]

theorem strip_idem (content : List Char) :
    strip_courtyard_from_content (strip_courtyard_from_content content) =
      strip_courtyard_from_content content := by
  cases hr : stripLines (splitNl content) with
  | nil =>
    have h1 : strip_courtyard_from_content content = [] := by
      rw [strip_courtyard_from_content, hr]
      rfl
    rw [h1]
    have h2 : splitNl ([] : List Char) = [[]] := rfl
    rw [strip_courtyard_from_content, h2,
      stripLines_cons_plain _ _ (by decide), stripLines_nil]
    rfl
  | cons x rest =>
    have hnn : stripLines (splitNl content) ≠ [] := by rw [hr]; simp
    have hnl : ∀ y ∈ stripLines (splitNl content), '\n' ∉ y := fun y hy =>
      splitNl_no_newline content y ((stripLines_sublist _).subset hy)
    rw [strip_courtyard_from_content, strip_courtyard_from_content,
      splitNl_joinNl _ hnl hnn, stripLines_idem]

/-! ### Non-element lines of the scan partition -/

/-- The lines of a chunk that lie outside any recognized element: a
plain chunk's single line; an element chunk contributes none. -/
def plainChunkLines : Chunk → List (List Char)
  | .plain l => [l]
  | .elem _ => []

theorem plainChunkLines_sublist_keepChunk (c : Chunk) :
    (plainChunkLines c).Sublist (keepChunk c) := by
  cases c with
  | plain l => exact List.Sublist.refl _
  | elem e => exact List.nil_sublist _

theorem flatten_map_sublist (f g : Chunk → List (List Char)) (l : List Chunk)
    (h : ∀ c, (f c).Sublist (g c)) :
    ((l.map f).flatten).Sublist ((l.map g).flatten) := by
  induction l with
  | nil => simp
  | cons x xs ih =>
    simp only [List.map_cons, List.flatten_cons]
    exact (h x).append ih

/-! ## The claims -/

/-- C1: for every input, the scanner partitions the input lines into
chunks covering the input exactly, and the output of
`strip_courtyard_from_content` is obtained by discarding exactly those
scanned elements whose joined text matches the courtyard-layer pattern
and keeping every other chunk's lines verbatim. -/
theorem claim1_strip_removes_exactly_matching_elements (content : List Char) :
    ((scanChunks (splitNl content)).map chunkLines).flatten = splitNl content ∧
      strip_courtyard_from_content content =
        joinNl (((scanChunks (splitNl content)).map keepChunk).flatten) :=
  ⟨scanChunks_flatten _, by
    rw [strip_courtyard_from_content, stripLines_eq_keepChunks]⟩

/-- C2: an element consists of the opening line and the collected
continuation; before each collected line the running counter (sum of
per-line `count '(' - count ')'` deltas over the whole lines consumed so
far) is strictly positive, and the element ends either because the input
is exhausted or because the counter has dropped to `≤ 0` after its last
line — i.e. with the first line after which the counter is `≤ 0`. -/
theorem claim2_element_delimitation (l : List Char) (ls : List (List Char)) :
    l :: ls = (l :: (collectGo (delta l) ls).1) ++ (collectGo (delta l) ls).2 ∧
      (∀ m : Nat, (collectGo (delta l) ls).1.length ≤ m ∨
        0 < sumD ((l :: (collectGo (delta l) ls).1).take (m + 1))) ∧
      ((collectGo (delta l) ls).2 = [] ∨
        sumD (l :: (collectGo (delta l) ls).1) ≤ 0) := by
  refine ⟨by rw [List.cons_append, collectGo_append], ?_, ?_⟩
  · intro m
    rcases (collectGo_spec (delta l) ls).1 m with hm | hm
    · exact Or.inl hm
    · right
      rw [List.take_succ_cons, sumD_cons]
      exact hm
  · rcases (collectGo_spec (delta l) ls).2 with hm | hm
    · exact Or.inl hm
    · right
      rw [sumD_cons]
      exact hm

/-- C3: every input line that is not part of a recognized geometric
element — i.e. every plain chunk of the scan partition — appears in the
output unchanged and in its original relative order (the plain lines
form a subsequence of the output), and the output line list is a
subsequence of the input line list: lines are only ever deleted whole,
never edited, inserted or reordered. -/
theorem claim3_output_lines_sublist (content : List Char) :
    (((scanChunks (splitNl content)).map plainChunkLines).flatten).Sublist
        (stripLines (splitNl content)) ∧
      (stripLines (splitNl content)).Sublist (splitNl content) := by
  constructor
  · rw [stripLines_eq_keepChunks]
    exact flatten_map_sublist plainChunkLines keepChunk _
      plainChunkLines_sublist_keepChunk
  · exact stripLines_sublist _

/-- C4: with file reads and writes modelled as `Except`-valued actions,
`process_file` returns `false` exactly when reading or writing raises,
and `true` exactly when both succeed — it never propagates a failure. -/
theorem claim4_process_file_catches_failures (r : Except String (List Char))
    (w : List Char → Except String Unit) (sc : Bool) :
    (process_file r w sc = false ↔
      (∃ e, r = Except.error e) ∨
        (∃ c e, r = Except.ok c ∧ w (processedContent c sc) = Except.error e)) ∧
      (process_file r w sc = true ↔
        (∃ c, r = Except.ok c ∧ w (processedContent c sc) = Except.ok ())) := by
  cases r with
  | error e =>
    constructor
    · simp [process_file]
    · simp [process_file]
  | ok c =>
    cases hw : w (processedContent c sc) with
    | error e =>
      constructor
      · simp [process_file, hw]
      · simp [process_file, hw]
    | ok u =>
      cases u
      constructor
      · simp [process_file, hw]
      · simp [process_file, hw]

/-- Witness for C4: a successful read and write yields `true`. -/
theorem claim4_witness :
    process_file (Except.ok ("abc".toList)) (fun _ => Except.ok ()) true = true :=
  (claim4_process_file_catches_failures (Except.ok ("abc".toList))
    (fun _ => Except.ok ()) true).2.mpr ⟨"abc".toList, rfl, rfl⟩

/-- C5: a line is recognized as a geometric element opener if and only
if, after optional leading whitespace, it starts with `(` immediately
followed by one of exactly the five keywords at a word boundary. -/
theorem claim5_recognition_iff (l : List Char) :
    isGeomStart l = true ↔
      ∃ ws kw rest, kw ∈ geomKeywords ∧
        l = ws ++ '(' :: (kw ++ rest) ∧
        (∀ c ∈ ws, pySpace c = true) ∧
        (∀ c, rest.head? = some c → isWordChar c = false) :=
  isGeomStart_iff l

/-- Witness for C5: the decomposition at the concrete line `  (fp_rect )`. -/
theorem claim5_witness :
    ∃ ws kw rest, kw ∈ geomKeywords ∧
      "  (fp_rect )".toList = ws ++ '(' :: (kw ++ rest) ∧
      (∀ c ∈ ws, pySpace c = true) ∧
      (∀ c, rest.head? = some c → isWordChar c = false) :=
  (claim5_recognition_iff ("  (fp_rect )".toList)).mp (by decide)

/-- C6: at a recognized opener the scanner emits the whole delimited
element as one chunk and resumes scanning at the first line after it;
the keep/discard decision is taken once for the whole element. -/
theorem claim6_disjoint_scan_resume (l : List Char) (ls : List (List Char))
    (h : isGeomStart l = true) :
    scanChunks (l :: ls) =
      Chunk.elem (l :: (collectGo (delta l) ls).1) ::
        scanChunks (collectGo (delta l) ls).2 ∧
      stripLines (l :: ls) =
        keepChunk (Chunk.elem (l :: (collectGo (delta l) ls).1)) ++
          stripLines (collectGo (delta l) ls).2 := by
  refine ⟨scanChunks_cons_geom _ _ h, ?_⟩
  rw [stripLines_cons_geom _ _ h, keepChunk]
  by_cases hc : courtyardSearch (joinNl (l :: (collectGo (delta l) ls).1))
  · rw [if_pos hc, if_pos hc, List.nil_append]
  · rw [if_neg hc, if_neg hc]

/-- Witness for C6: scanning resumes after the element `(fp_line` + `)`. -/
theorem claim6_witness :
    scanChunks ("(fp_line".toList :: [")".toList, "x".toList]) =
      Chunk.elem ("(fp_line".toList ::
          (collectGo (delta ("(fp_line".toList)) [")".toList, "x".toList]).1) ::
        scanChunks (collectGo (delta ("(fp_line".toList)) [")".toList, "x".toList]).2 ∧
      stripLines ("(fp_line".toList :: [")".toList, "x".toList]) =
        keepChunk (Chunk.elem ("(fp_line".toList ::
            (collectGo (delta ("(fp_line".toList)) [")".toList, "x".toList]).1)) ++
          stripLines (collectGo (delta ("(fp_line".toList)) [")".toList, "x".toList]).2 :=
  claim6_disjoint_scan_resume ("(fp_line".toList) [")".toList, "x".toList] (by decide)

/-- C7: the scan position strictly advances on every iteration of the
outer loop — after delimiting an element starting at a line, strictly
fewer lines remain — so the pass terminates on every input; in
particular the output never has more lines than the input. -/
theorem claim7_scan_progress (l : List Char) (ls : List (List Char)) :
    ((collectGo (delta l) ls).2).length < (l :: ls).length ∧
      (stripLines (l :: ls)).length ≤ (l :: ls).length :=
  ⟨Nat.lt_succ_of_le (collectGo_snd_length_le _ _),
    (stripLines_sublist _).length_le⟩

/-- C8: when `has_courtyard` is `false`, `strip_courtyard_from_content`
is the identity on the content and `process_file` writes the input
content out unmodified. -/
theorem claim8_no_courtyard_identity (content : List Char)
    (h : has_courtyard content = false) :
    strip_courtyard_from_content content = content ∧
      processedContent content true = content :=
  ⟨strip_of_no_courtyard content h, by simp [processedContent, h]⟩

/-- Witness for C8: content without the pattern passes through. -/
theorem claim8_witness :
    strip_courtyard_from_content ("(fp_text hello)".toList) = "(fp_text hello)".toList ∧
      processedContent ("(fp_text hello)".toList) true = "(fp_text hello)".toList :=
  claim8_no_courtyard_identity ("(fp_text hello)".toList) (by decide)

/-- C9: `strip_courtyard_from_content` is idempotent. -/
theorem claim9_strip_idempotent (content : List Char) :
    strip_courtyard_from_content (strip_courtyard_from_content content) =
      strip_courtyard_from_content content :=
  strip_idem content

/-- C10: when a recognized element's parentheses never rebalance, the
whole remaining input is the element: it is removed entirely when its
text contains the courtyard pattern and kept verbatim otherwise, and the
scan still returns. -/
theorem claim10_unbalanced_tail (l : List Char) (ls : List (List Char))
    (hg : isGeomStart l = true)
    (hnb : (collectGo (delta l) ls).2 = []) :
    stripLines (l :: ls) =
      if courtyardSearch (joinNl (l :: ls)) then [] else l :: ls := by
  have hall : (collectGo (delta l) ls).1 = ls := collectGo_nil_all _ _ hnb
  rw [stripLines_cons_geom _ _ hg, hall, hnb, stripLines_nil, List.append_nil]

/-- Witness for C10: an element that never closes swallows the tail. -/
theorem claim10_witness :
    stripLines ("(fp_line".toList :: ["(layer \"F.CrtYd\"".toList]) =
      if courtyardSearch (joinNl ("(fp_line".toList :: ["(layer \"F.CrtYd\"".toList]))
        then [] else "(fp_line".toList :: ["(layer \"F.CrtYd\"".toList] :=
  claim10_unbalanced_tail ("(fp_line".toList) ["(layer \"F.CrtYd\"".toList]
    (by decide) (by decide)

end Strip
